import Mathlib

/-!
Verification of the diffsoup core: the commit reconciliation algorithm
(`src/diff.rs`, `calculate_branch_diff`), the TUI controller state machine
(`src/tui/state.rs`, `AppState::handle_worker`; `src/tui/mod.rs`, `run`),
and the background worker loop (`src/tui/worker.rs`, `spawn_worker_thread`).

The Rust code is shallowly embedded: pure data is translated to Lean
structures, the mutating handlers become functions from state to state,
`usize` arithmetic wraps at `2^64` (release-build semantics), a Rust panic
(out-of-bounds indexing) is modelled as `Option.none`, channel sends are
modelled by appending to a ghost `sent` list, and the external repository
operations (per-commit stats, cross-commit stats, history fetching) are
passed in as oracle parameters.
-/

namespace Diffsoup

/-- Alignment identity of a commit, from `DiffSource` in `src/diff.rs`:
either a rewrite-stable change id or a fallback of author metadata. -/
inductive DiffSource where
  | changeId (id : String)
  | meta (author_name : String) (author_email : String) (author_timestamp : Int)
deriving DecidableEq, Repr

/-- A commit as seen by the reconciliation engine: its content hash, its
description, and its precomputed `DiffSource` (the Rust code computes
`DiffSource::from_commit` for every commit up front; we bundle the result
with the commit). -/
structure RCommit where
  sha : String
  message : String
  source : DiffSource
deriving DecidableEq, Repr

/-- `CommitMeta` from `src/diff.rs`. -/
structure CommitMeta where
  sha : String
  message : String
deriving DecidableEq, Repr

/-- `DiffStats` from `src/diff.rs` (`#[derive(Default)]` zero-initializes). -/
structure DiffStats where
  additions : Nat
  removals : Nat
  changed_files : Nat
deriving DecidableEq, Repr

/-- `CommitDiff` from `src/diff.rs`; `fromSide`/`toSide` model the Rust
fields `from`/`to` (reserved words in Lean). -/
structure CommitDiff where
  fromSide : Option CommitMeta
  toSide : Option CommitMeta
  stats : DiffStats
deriving DecidableEq, Repr

/-- `CommitDiff::has_changes` from `src/diff.rs`. -/
def CommitDiff.has_changes (c : CommitDiff) : Bool :=
  match c.fromSide, c.toSide with
  | none, some _ => true
  | some _, none => true
  | some f, some t => decide (c.stats.changed_files > 0) && decide (f.sha ≠ t.sha)
  | none, none => false

/-- One `HashMap::insert`: the key/value pair shadows earlier entries
(lookup below returns the first hit, i.e. the latest insert — exactly the
replace-on-insert behaviour of `std::collections::HashMap`). -/
def mInsert (m : List (DiffSource × RCommit)) (k : DiffSource) (v : RCommit) :
    List (DiffSource × RCommit) :=
  (k, v) :: m

/-- `HashMap::get`: the value of the latest insert for the key, if any. -/
def mFind (m : List (DiffSource × RCommit)) (k : DiffSource) : Option RCommit :=
  (m.find? (fun p => decide (p.1 = k))).map (fun p => p.2)

/-- The alignment loop of `calculate_branch_diff` (`src/diff.rs` lines
183–215): a two-pointer walk over the two commit sequences, accumulating
the `from_map`, `to_map` and the ordered `change_ids` list.  The pointers
are modelled by recursing on the remaining suffixes. -/
def reconcileLoop :
    List RCommit → List RCommit →
    List (DiffSource × RCommit) → List (DiffSource × RCommit) → List DiffSource →
    List (DiffSource × RCommit) × List (DiffSource × RCommit) × List DiffSource
  | f :: fs, t :: ts, fm, tm, ids =>
      if f.source = t.source then
        reconcileLoop fs ts (mInsert fm f.source f) (mInsert tm t.source t)
          (ids ++ [f.source])
      else if t.source ∈ (f :: fs).map RCommit.source then
        reconcileLoop fs (t :: ts) (mInsert fm f.source f) tm (ids ++ [f.source])
      else
        reconcileLoop (f :: fs) ts fm (mInsert tm t.source t) (ids ++ [t.source])
  | f :: fs, [], fm, tm, ids =>
      reconcileLoop fs [] (mInsert fm f.source f) tm (ids ++ [f.source])
  | [], t :: ts, fm, tm, ids =>
      reconcileLoop [] ts fm (mInsert tm t.source t) (ids ++ [t.source])
  | [], [], fm, tm, ids => (fm, tm, ids)
termination_by fs ts _ _ _ => fs.length + ts.length

/-- Projection of a commit to the emitted metadata (`src/diff.rs` 223–231). -/
def commitMeta (c : RCommit) : CommitMeta := ⟨c.sha, c.message⟩

/-- The stats dispatch of `src/diff.rs` lines 233–240, with the external
diffing operations abstracted: `k c` models `calculate_commit_stats c`
(commit against its first parent) and `d f t` models
`calculate_diff_stats f t`.  Same commit id (sha) on both sides selects
the per-commit stats of the `to` commit. -/
def rowStats (k : RCommit → DiffStats) (d : RCommit → RCommit → DiffStats) :
    Option RCommit → Option RCommit → DiffStats
  | some f, some t => if f.sha = t.sha then k t else d f t
  | some f, none => k f
  | none, some t => k t
  | none, none => ⟨0, 0, 0⟩

/-- `calculate_branch_diff` from `src/diff.rs` (lines 176–250), starting
after the revset evaluation: given the two resolved commit sequences, run
the alignment loop and then build one `CommitDiff` row per `change_ids`
entry by looking the id up in both maps. -/
def calculate_branch_diff (k : RCommit → DiffStats) (d : RCommit → RCommit → DiffStats)
    (from_commits to_commits : List RCommit) : List CommitDiff :=
  let r := reconcileLoop from_commits to_commits [] [] []
  r.2.2.map (fun s =>
    let fc := mFind r.1 s
    let tc := mFind r.2.1 s
    { fromSide := fc.map commitMeta
      toSide := tc.map commitMeta
      stats := rowStats k d fc tc })

/-! ## The TUI controller state (`src/tui/state.rs`, `src/tui/mod.rs`) -/

/-- `PageDirection` from `src/pr/mod.rs`. -/
inductive PageDirection where
  | forward
  | backward
deriving DecidableEq, Repr

/-- `OffsetPagination` from `src/pr/mod.rs`. -/
structure OffsetPagination where
  offset : Nat
  limit : Option Nat
  direction : PageDirection
deriving DecidableEq, Repr

/-- `CursorPagination` from `src/pr/mod.rs`. -/
structure CursorPagination where
  cursor : Option String
  limit : Nat
  direction : PageDirection
deriving DecidableEq, Repr

/-- `Pagination` from `src/pr/mod.rs`. -/
inductive Pagination where
  | offset (p : OffsetPagination)
  | cursor (p : CursorPagination)
deriving DecidableEq, Repr

/-- `Pagination::direction` from `src/pr/mod.rs`. -/
def Pagination.direction : Pagination → PageDirection
  | .offset p => p.direction
  | .cursor p => p.direction

/-- `Page<T>` from `src/pr/mod.rs`; commit identifiers (`RefNameBuf`) are
modelled as strings. -/
structure Page (T : Type) where
  items : List T
  direction : PageDirection
  next : Option Pagination
deriving Repr

/-- The used surface of the ratatui `ListState`: the optional selected index. -/
structure ListState where
  selected : Option Nat
deriving DecidableEq, Repr

/-- `DiffView` from `src/tui/state.rs`. -/
structure DiffView where
  commit : String
  diff : String
  scroll : Nat
deriving DecidableEq, Repr

/-- `ListView` from `src/tui/state.rs`. -/
structure ListView where
  commits : List CommitDiff
  list_state : ListState
  show_unchanged : Bool
  base_name : String
  base_index : Nat
  comparison_name : String
  comparison_index : Nat
  total_commits : Nat
deriving DecidableEq, Repr

/-- `AppScreen` from `src/tui/state.rs`. -/
inductive AppScreen where
  | loading (msg : Option String)
  | exit
  | error (msg : Option String)
  | list (v : ListView)
  | diffView (v : DiffView)
deriving DecidableEq, Repr

/-- `WorkerRequest` from `src/tui/worker.rs` (the Rust field names `from`
and `to` are reserved in Lean and appear as `fromRev`/`toRev`). -/
inductive WorkerRequest where
  | loadCommits (pagination : Option Pagination)
  | calculateBranchDiff (fromRev : String) (from_index : Nat) (toRev : String) (to_index : Nat)
  | renderInterdiff (fromRev : Option String) (toRev : Option String)
      (render_width : Nat) (scroll : Nat)
deriving DecidableEq, Repr

/-- `WorkerResponse` from `src/tui/worker.rs`, plus the `Loading` variant
that `AppState::handle_worker` matches on. -/
inductive WorkerResponse where
  | error (msg : String)
  | loading (msg : String)
  | calculateBranchDiff (commits : List CommitDiff) (fromIdx : Nat) (toIdx : Nat)
  | renderInterdiff (title : String) (diff : String) (scroll : Nat)
  | loadCommits (page : Page String)
deriving Repr

/-- `WorkerMsg<T>` from `src/tui/worker.rs`: a payload tagged with a job id
(`JobId` is a wrapping `u64`, modelled as `Nat` below `2^64`). -/
structure WorkerMsg (T : Type) where
  job_id : Nat
  msg : T
deriving Repr

/-- `JobId::next` from `src/tui/mod.rs`: `wrapping_add(1)` on a `u64`. -/
def jobIdNext (j : Nat) : Nat := (j + 1) % 2 ^ 64

/-- Wrapping `usize` subtraction (release-build semantics of the Rust `-` on
`usize`), for subtrahends up to `2^64`. -/
def usizeSub (a b : Nat) : Nat := if b ≤ a then a - b else a + (2 ^ 64 - b)

/-- `AppState` from `src/tui/state.rs`.  The `worker_req_tx` channel is
modelled by the ghost field `sent`, the list of requests sent so far. -/
structure AppState where
  screen : AppScreen
  screen_size : Nat × Nat
  list_state : ListState
  show_unchanged : Bool
  commit_list : List String
  next_page : Option Pagination
  base_index : Nat
  comparison_index : Nat
  current_job : Option Nat
  sent : List (WorkerMsg WorkerRequest)
deriving Repr

/-- `AppState::next_job` from `src/tui/state.rs`:
`self.current_job.map(JobId::next).unwrap_or_default()`. -/
def AppState.next_job (s : AppState) : Nat :=
  match s.current_job with
  | some j => jobIdNext j
  | none => 0

/-- `AppState::handle_worker` from `src/tui/state.rs` (lines 136–233).
A Rust panic (out-of-bounds index after the wrapped `len - 2` / `len - 1`
subtractions) is modelled as `none`; all other paths return `some` of the
updated state. -/
def AppState.handle_worker (s : AppState) (response : WorkerResponse) : Option AppState :=
  match response with
  | .error msg => some { s with screen := .error (some msg) }
  | .loading msg => some { s with screen := .loading (some msg) }
  | .loadCommits page =>
      let length := page.items.length
      -- `self.commit_list.splice(0..0, page.items)` — insert new at start
      let s1 := { s with commit_list := page.items ++ s.commit_list }
      let s2 : Option AppState :=
        match s1.screen with
        | .loading _ =>
            let job_id := s1.next_job
            let ft : Nat × Nat :=
              match page.direction with
              | .backward =>
                  (usizeSub s1.commit_list.length 2, usizeSub s1.commit_list.length 1)
              | .forward => (0, 1)
            match s1.commit_list.get? ft.1, s1.commit_list.get? ft.2 with
            | some cf, some ct =>
                some { s1 with
                  sent := s1.sent ++
                    [⟨job_id, .calculateBranchDiff cf ft.1 ct ft.2⟩]
                  current_job := some job_id }
            | _, _ => none
        | .list lv =>
            let lv1 := { lv with total_commits := s1.commit_list.length }
            let lv2 :=
              match s1.next_page with
              | some pagination =>
                  if pagination.direction = .backward then
                    { lv1 with
                      base_index := lv1.base_index + length
                      comparison_index := lv1.comparison_index + length }
                  else lv1
              | none => lv1
            some { s1 with screen := .list lv2 }
        | _ => some s1
      s2.map (fun s3 => { s3 with next_page := page.next })
  | .calculateBranchDiff commits f t =>
      let s1 := { s with base_index := f, comparison_index := t }
      let selected := min commits.length (s1.list_state.selected.getD 0)
      let s2 := { s1 with screen := .list {
          commits := commits
          list_state := ⟨some selected⟩
          show_unchanged := s1.show_unchanged
          base_name := (s1.commit_list.get? f).getD ""
          base_index := f
          comparison_name := (s1.commit_list.get? t).getD ""
          comparison_index := t
          total_commits := s1.commit_list.length } }
      match s2.next_page with
      | none => some s2
      | some next =>
          let has_next :=
            match next.direction with
            | .backward => decide (s2.base_index = 0)
            | .forward => decide (s2.comparison_index ≥ usizeSub s2.commit_list.length 1)
          if has_next then
            let job_id := s2.next_job
            some { s2 with
              sent := s2.sent ++ [⟨job_id, .loadCommits (some next)⟩]
              current_job := some job_id }
          else some s2
  | .renderInterdiff title diff scroll =>
      some { s with screen := .diffView ⟨title, diff, scroll⟩ }

/-- The worker-message arm of the controller event loop (`run` in
`src/tui/mod.rs`, lines 83–90): a response is applied only when its job id
equals `current_job`; otherwise the state is left untouched. -/
def dispatch_worker (s : AppState) (m : WorkerMsg WorkerResponse) : Option AppState :=
  if s.current_job = some m.job_id then s.handle_worker m.msg else some s

/-! ## The worker loop (`src/tui/worker.rs`) -/

/-- A worker request bundled with the outcomes of the external operations
performed while servicing it: for `LoadCommits` the result of
`pr_fetcher.fetch_history` and of `ensure_commits_exist`; for
`CalculateBranchDiff` the result of `calculate_branch_diff`; for
`RenderInterdiff` the result of the (internally error-isolated) render. -/
inductive WReq where
  | loadCommits (fetch : Except String (Page String)) (ensure : Except String Unit)
  | calculateBranchDiff (calcRes : Except String (List CommitDiff))
      (from_index : Nat) (to_index : Nat)
  | renderInterdiff (render : Except String (String × String)) (scroll : Nat)

/-- Servicing of one request in `spawn_worker_thread` (`src/tui/worker.rs`
lines 75–103).  `Except.error` models an error escaping through the `?`
operator — which happens only for `ensure_commits_exist` after a
successful fetch — while every other failure is folded into a
`WorkerResponse.error`. -/
def processRequest : WReq → Except String WorkerResponse
  | .loadCommits fetch ensure =>
      match fetch with
      | .ok page =>
          match ensure with
          | .ok _ => .ok (.loadCommits page)
          | .error e => .error e
      | .error e => .ok (.error e)
  | .calculateBranchDiff calcRes fi ti =>
      .ok (match calcRes with
        | .ok commits => .calculateBranchDiff commits fi ti
        | .error e => .error e)
  | .renderInterdiff render scroll =>
      .ok (match render with
        | .ok td => .renderInterdiff td.1 td.2 scroll
        | .error e => .error e)

/-- The worker thread loop (`src/tui/worker.rs` lines 73–114) run over a
queue of requests: returns the responses sent (tagged with the job id of
the request) and `some e` when the loop was terminated early by a
propagated error (in which case later requests are never serviced), or
`none` when the queue was drained and the thread returned `Ok(())`. -/
def workerLoop : List (WorkerMsg WReq) → List (WorkerMsg WorkerResponse) × Option String
  | [] => ([], none)
  | r :: rs =>
      match processRequest r.msg with
      | .ok resp =>
          let rest := workerLoop rs
          (⟨r.job_id, resp⟩ :: rest.1, rest.2)
      | .error e => ([], some e)

/-! ## Derived notions used in the statements -/

/-- All the inserts one side of the loop performs on its map over a full
run: every commit of the sequence is inserted once, in sequence order. -/
def insertAll (m : List (DiffSource × RCommit)) (cs : List RCommit) :
    List (DiffSource × RCommit) :=
  cs.foldl (fun acc c => mInsert acc c.source c) m

/-- The latest commit of `cs` whose source is `s` — what a lookup in the
map of that side returns after all of `cs` has been inserted (later
inserts replace earlier ones). -/
def findLast (cs : List RCommit) (s : DiffSource) : Option RCommit :=
  cs.reverse.find? (fun c => decide (c.source = s))

/-- The `ListView` shown by a (possibly panicked) post-handler state, when
its screen is the list screen. -/
def screenListView (r : Option AppState) : Option ListView :=
  match r with
  | some s =>
      match s.screen with
      | .list lv => some lv
      | _ => none
  | none => none

/-- Requests whose servicing never propagates an error out of the worker
loop: either the fetch already failed (so `ensure_commits_exist` is never
reached) or `ensure_commits_exist` succeeded. -/
def ensureOk : WReq → Bool
  | .loadCommits (.ok _) (.error _) => false
  | _ => true

/-- The single response a request produces when no error propagates. -/
def responseFor : WReq → WorkerResponse
  | .loadCommits (.ok page) _ => .loadCommits page
  | .loadCommits (.error e) _ => .error e
  | .calculateBranchDiff (.ok commits) fi ti => .calculateBranchDiff commits fi ti
  | .calculateBranchDiff (.error e) _ _ => .error e
  | .renderInterdiff (.ok td) scroll => .renderInterdiff td.1 td.2 scroll
  | .renderInterdiff (.error e) _ => .error e

/-! ## Concrete fixtures for witnesses and counterexamples -/

/-- Per-commit stats oracle returning zero stats. -/
def kZ : RCommit → DiffStats := fun _ => ⟨0, 0, 0⟩

/-- Cross-commit stats oracle returning zero stats. -/
def dZ : RCommit → RCommit → DiffStats := fun _ _ => ⟨0, 0, 0⟩

/-- Sample commits with pairwise distinct change-id sources. -/
def cA : RCommit := ⟨"a1", "msg a", .changeId "A"⟩

/-- Second sample commit. -/
def cB : RCommit := ⟨"b1", "msg b", .changeId "B"⟩

/-- Third sample commit. -/
def cC : RCommit := ⟨"c1", "msg c", .changeId "C"⟩

/-- Fourth sample commit. -/
def cD : RCommit := ⟨"d1", "msg d", .changeId "D"⟩

/-- First of two distinct commits sharing a fallback metadata source. -/
def dup1 : RCommit := ⟨"sha1", "first", .meta "alice" "alice@example.com" 7⟩

/-- Second of two distinct commits sharing a fallback metadata source. -/
def dup2 : RCommit := ⟨"sha2", "second", .meta "alice" "alice@example.com" 7⟩

/-- A list view tracking indices 5 and 6. -/
def lvSample : ListView := ⟨[], ⟨some 0⟩, false, "a", 5, "b", 6, 2⟩

/-- A backward offset pagination token. -/
def pagBack : Pagination := .offset ⟨0, none, .backward⟩

/-- A controller state on the list screen with a pending backward page. -/
def sList : AppState :=
  ⟨.list lvSample, (0, 0), ⟨none⟩, false, ["a", "b"], some pagBack, 5, 6, some 0, []⟩

/-- A fresh controller state on the loading screen with an empty commit
directory and a current job. -/
def sLoading : AppState :=
  ⟨.loading none, (0, 0), ⟨none⟩, false, [], none, 0, 0, some 0, []⟩

/-- A controller state on the error screen holding two commits. -/
def sErr : AppState :=
  ⟨.error none, (0, 0), ⟨none⟩, false, ["a", "b"], none, 0, 0, some 0, []⟩

/-- The state `sErr` after a one-item page has been prepended. -/
def sErrAfter : AppState :=
  ⟨.error none, (0, 0), ⟨none⟩, false, ["x", "a", "b"], none, 0, 0, some 0, []⟩

/-- A controller state whose remembered list selection is 5 and whose
current job id is 3. -/
def sSel : AppState :=
  ⟨.error none, (0, 0), ⟨some 5⟩, false, [], none, 0, 0, some 3, []⟩

/-- A one-item backward page. -/
def pgOne : Page String := ⟨["only"], .backward, none⟩

/-- A one-item backward page with fresh content. -/
def pgX : Page String := ⟨["x"], .backward, none⟩

/-- A sample one-sided commit diff row. -/
def cdSample : CommitDiff := ⟨some ⟨"a1", "msg a"⟩, none, ⟨0, 0, 0⟩⟩

/-- Three worker requests none of which propagates an error. -/
def okReqs : List (WorkerMsg WReq) :=
  [⟨7, .loadCommits (.error "fetchfail") (.ok ())⟩,
   ⟨8, .calculateBranchDiff (.error "calcfail") 0 1⟩,
   ⟨9, .renderInterdiff (.ok ("title", "diff")) 0⟩]

/-! ## Structural lemmas about the alignment loop -/

/-- Whatever the interleaving, the final maps are fully determined: every
commit of each side is inserted into the map of that side exactly once,
in sequence order. -/
theorem reconcileLoop_maps (fs ts : List RCommit) (fm tm : List (DiffSource × RCommit))
    (ids : List DiffSource) :
    (reconcileLoop fs ts fm tm ids).1 = insertAll fm fs ∧
    (reconcileLoop fs ts fm tm ids).2.1 = insertAll tm ts := by
  induction fs, ts, fm, tm, ids using reconcileLoop.induct with
  | case1 f fs t ts fm tm ids h ih => simp only [reconcileLoop, if_pos h]; exact ih
  | case2 f fs t ts fm tm ids h1 h2 ih =>
      simp only [reconcileLoop, if_neg h1, if_pos h2]; exact ih
  | case3 f fs t ts fm tm ids h1 h2 ih =>
      simp only [reconcileLoop, if_neg h1, if_neg h2]; exact ih
  | case4 f fs fm tm ids ih => simp only [reconcileLoop]; exact ih
  | case5 t ts fm tm ids ih => simp only [reconcileLoop]; exact ih
  | case6 fm tm ids => simp [reconcileLoop, insertAll]

/-- Every id the loop emits comes from the initial accumulator or from the
source of some commit of either side. -/
theorem reconcileLoop_ids_mem (fs ts : List RCommit) (fm tm : List (DiffSource × RCommit))
    (ids : List DiffSource) (s : DiffSource)
    (h : s ∈ (reconcileLoop fs ts fm tm ids).2.2) :
    s ∈ ids ∨ s ∈ fs.map RCommit.source ∨ s ∈ ts.map RCommit.source := by
  induction fs, ts, fm, tm, ids using reconcileLoop.induct with
  | case1 f fs t ts fm tm ids hc ih =>
      simp only [reconcileLoop, if_pos hc] at h
      rcases ih h with h1 | h1 | h1 <;> (simp_all [List.mem_append]; try tauto)
  | case2 f fs t ts fm tm ids h1 h2 ih =>
      simp only [reconcileLoop, if_neg h1, if_pos h2] at h
      rcases ih h with h3 | h3 | h3 <;> (simp_all [List.mem_append]; try tauto)
  | case3 f fs t ts fm tm ids h1 h2 ih =>
      simp only [reconcileLoop, if_neg h1, if_neg h2] at h
      rcases ih h with h3 | h3 | h3 <;> (simp_all [List.mem_append]; try tauto)
  | case4 f fs fm tm ids ih =>
      simp only [reconcileLoop] at h
      rcases ih h with h1 | h1 | h1 <;> (simp_all [List.mem_append]; try tauto)
  | case5 t ts fm tm ids ih =>
      simp only [reconcileLoop] at h
      rcases ih h with h1 | h1 | h1 <;> (simp_all [List.mem_append]; try tauto)
  | case6 fm tm ids => simp only [reconcileLoop] at h; exact Or.inl h

/-- Looking up a key after inserting a whole sequence returns the latest
occurrence of the key in the sequence, falling back to the prior map. -/
theorem mFind_insertAll (m : List (DiffSource × RCommit)) (cs : List RCommit) (s : DiffSource) :
    mFind (insertAll m cs) s =
      match findLast cs s with
      | some c => some c
      | none => mFind m s := by
  induction cs generalizing m with
  | nil => simp [insertAll, findLast]
  | cons c cs ih =>
      show mFind (insertAll (mInsert m c.source c) cs) s = _
      rw [ih]
      simp only [findLast, List.reverse_cons, List.find?_append]
      cases hcs : cs.reverse.find? (fun x => decide (x.source = s)) with
      | some x => simp [findLast, hcs, Option.orElse]
      | none =>
          simp only [findLast, hcs, Option.none_orElse]
          by_cases hc : c.source = s
          · simp [mFind, mInsert, List.find?, hc]
          · simp [mFind, mInsert, List.find?, hc]

/-- Looking up in a map built from the empty map returns the latest
occurrence in the inserted sequence. -/
theorem mFind_insertAll_nil (cs : List RCommit) (s : DiffSource) :
    mFind (insertAll [] cs) s = findLast cs s := by
  rw [mFind_insertAll]
  cases findLast cs s <;> rfl

/-- A source that occurs nowhere in the sequence is not found. -/
theorem findLast_eq_none (cs : List RCommit) (s : DiffSource)
    (h : s ∉ cs.map RCommit.source) : findLast cs s = none := by
  rw [findLast, List.find?_eq_none]
  intro x hx
  simp only [decide_eq_true_eq]
  intro hsrc
  exact h (List.mem_map.mpr ⟨x, List.mem_reverse.mp hx, hsrc⟩)

/-- A source that occurs in the sequence is found. -/
theorem findLast_isSome (cs : List RCommit) (s : DiffSource)
    (h : s ∈ cs.map RCommit.source) : (findLast cs s).isSome := by
  rw [findLast, List.find?_isSome]
  obtain ⟨c, hc, hsrc⟩ := List.mem_map.mp h
  exact ⟨c, List.mem_reverse.mpr hc, by simp [hsrc]⟩

/-- With no duplicate sources on the side, the lookup returns exactly the
unique commit carrying the source. -/
theorem findLast_nodup (cs : List RCommit) (c : RCommit)
    (hnd : (cs.map RCommit.source).Nodup) (hc : c ∈ cs) :
    findLast cs c.source = some c := by
  have hsome := findLast_isSome cs c.source (List.mem_map.mpr ⟨c, hc, rfl⟩)
  obtain ⟨x, hx⟩ := Option.isSome_iff_exists.mp hsome
  have hmem : x ∈ cs.reverse := List.mem_of_find?_eq_some hx
  have hpx : x.source = c.source := by
    have := List.find?_some hx
    simpa using this
  have := List.inj_on_of_nodup_map hnd (List.mem_reverse.mp hmem) hc hpx
  rw [hx, this]

/-- After the `to` side is drained the loop emits the remaining `from`
commits in order. -/
theorem reconcileLoop_from_drain (fs : List RCommit) (fm tm : List (DiffSource × RCommit))
    (ids : List DiffSource) :
    reconcileLoop fs [] fm tm ids = (insertAll fm fs, tm, ids ++ fs.map RCommit.source) := by
  induction fs generalizing fm ids with
  | nil => simp [reconcileLoop, insertAll]
  | cons f fs ih =>
      rw [reconcileLoop, ih]
      simp [insertAll]

/-- With disjoint sources the loop drains `to` first (each step takes the
final else branch because the lookahead fails), then `from`. -/
theorem reconcileLoop_disjoint (fs ts : List RCommit) (fm tm : List (DiffSource × RCommit))
    (ids : List DiffSource)
    (hd : ∀ c ∈ fs, ∀ t ∈ ts, c.source ≠ t.source) :
    reconcileLoop fs ts fm tm ids =
      (insertAll fm fs, insertAll tm ts,
        ids ++ ts.map RCommit.source ++ fs.map RCommit.source) := by
  induction ts generalizing fm tm ids with
  | nil => rw [reconcileLoop_from_drain]; simp [insertAll]
  | cons t ts ih =>
      have hd2 : ∀ c ∈ fs, ∀ u ∈ ts, c.source ≠ u.source :=
        fun c hc u hu => hd c hc u (List.mem_cons_of_mem t hu)
      cases fs with
      | nil =>
          rw [reconcileLoop, ih _ _ _ hd2]
          simp [insertAll]
      | cons f fs2 =>
          have hne : ¬ f.source = t.source :=
            hd f (List.mem_cons_self f fs2) t (List.mem_cons_self t ts)
          have hnm : t.source ∉ (f :: fs2).map RCommit.source := by
            intro hmem
            obtain ⟨c, hc, hsrc⟩ := List.mem_map.mp hmem
            exact hd c hc t (List.mem_cons_self t ts) hsrc
          rw [reconcileLoop, if_neg hne, if_neg hnm, ih _ _ _ hd2]
          simp [insertAll]

/-- On identical sequences every step takes the equal-source branch. -/
theorem reconcileLoop_self (cs : List RCommit) (fm tm : List (DiffSource × RCommit))
    (ids : List DiffSource) :
    reconcileLoop cs cs fm tm ids =
      (insertAll fm cs, insertAll tm cs, ids ++ cs.map RCommit.source) := by
  induction cs generalizing fm tm ids with
  | nil => simp [reconcileLoop, insertAll]
  | cons c cs ih =>
      rw [reconcileLoop, if_pos rfl, ih]
      simp [insertAll]

/-! ## The claims -/

/-- Claim C1: for input sequences with disjoint `DiffSource` sets and no
duplicate source within a side, `calculate_branch_diff` returns exactly
`len(from) + len(to)` entries, all one-sided, and — per the greedy
two-pointer rule, whose lookahead always fails on disjoint sources — the
`to`-only entries come first in `to` order (the `to` side is drained
step by step) followed by the `from`-only entries in `from` order. -/
theorem calculate_branch_diff_disjoint_sources (k : RCommit → DiffStats)
    (d : RCommit → RCommit → DiffStats) (from_commits to_commits : List RCommit)
    (hd : ∀ c ∈ from_commits, ∀ t ∈ to_commits, c.source ≠ t.source)
    (hf : (from_commits.map RCommit.source).Nodup)
    (ht : (to_commits.map RCommit.source).Nodup) :
    calculate_branch_diff k d from_commits to_commits =
      to_commits.map (fun c => ⟨none, some (commitMeta c), k c⟩) ++
      from_commits.map (fun c => ⟨some (commitMeta c), none, k c⟩) ∧
    (calculate_branch_diff k d from_commits to_commits).length
      = from_commits.length + to_commits.length ∧
    ∀ r ∈ calculate_branch_diff k d from_commits to_commits,
      (r.fromSide = none ∧ r.toSide.isSome) ∨ (r.fromSide.isSome ∧ r.toSide = none) := by
  have hmain : calculate_branch_diff k d from_commits to_commits =
      to_commits.map (fun c => ⟨none, some (commitMeta c), k c⟩) ++
      from_commits.map (fun c => ⟨some (commitMeta c), none, k c⟩) := by
    simp only [calculate_branch_diff, reconcileLoop_disjoint _ _ _ _ _ hd,
      List.nil_append, List.map_append, List.map_map]
    congr 1
    · apply List.map_congr_left
      intro c hc
      have hnone : findLast from_commits c.source = none := by
        apply findLast_eq_none
        intro hmem
        obtain ⟨x, hx, hsrc⟩ := List.mem_map.mp hmem
        exact hd x hx c hc hsrc
      simp only [Function.comp_apply, mFind_insertAll_nil, hnone,
        findLast_nodup to_commits c ht hc]
      rfl
    · apply List.map_congr_left
      intro c hc
      have hnone : findLast to_commits c.source = none := by
        apply findLast_eq_none
        intro hmem
        obtain ⟨x, hx, hsrc⟩ := List.mem_map.mp hmem
        exact hd c hc x hx hsrc.symm
      simp only [Function.comp_apply, mFind_insertAll_nil, hnone,
        findLast_nodup from_commits c hf hc]
      rfl
  refine ⟨hmain, ?_, ?_⟩
  · rw [hmain]; simp [Nat.add_comm]
  · intro r hr
    rw [hmain] at hr
    rcases List.mem_append.mp hr with h | h
    · obtain ⟨c, _, rfl⟩ := List.mem_map.mp h
      exact Or.inl ⟨rfl, rfl⟩
    · obtain ⟨c, _, rfl⟩ := List.mem_map.mp h
      exact Or.inr ⟨rfl, rfl⟩

/-- Witness for C1 at `from = [cA, cB]`, `to = [cC, cD]` (four pairwise
distinct change ids). -/
theorem calculate_branch_diff_disjoint_sources_witness :
    (∀ c ∈ [cA, cB], ∀ t ∈ [cC, cD], c.source ≠ t.source) ∧
    (([cA, cB].map RCommit.source).Nodup ∧ ([cC, cD].map RCommit.source).Nodup) ∧
    (calculate_branch_diff kZ dZ [cA, cB] [cC, cD] =
        [cC, cD].map (fun c => ⟨none, some (commitMeta c), kZ c⟩) ++
        [cA, cB].map (fun c => ⟨some (commitMeta c), none, kZ c⟩) ∧
      (calculate_branch_diff kZ dZ [cA, cB] [cC, cD]).length
        = [cA, cB].length + [cC, cD].length ∧
      ∀ r ∈ calculate_branch_diff kZ dZ [cA, cB] [cC, cD],
        (r.fromSide = none ∧ r.toSide.isSome) ∨ (r.fromSide.isSome ∧ r.toSide = none)) :=
  ⟨by decide, ⟨by decide, by decide⟩,
    calculate_branch_diff_disjoint_sources kZ dZ [cA, cB] [cC, cD]
      (by decide) (by decide) (by decide)⟩

/-- Claim C2: the controller event loop applies a worker response only
when its job id equals `current_job`; a mismatching id (or no current
job) leaves the state untouched, and in the 1-2-3 scenario with
`current_job = 3` only the id-3 response is applied. -/
theorem run_discards_stale_responses :
    (∀ (s : AppState) (m : WorkerMsg WorkerResponse),
        s.current_job ≠ some m.job_id → dispatch_worker s m = some s) ∧
    ∀ (s : AppState) (r1 r3 : WorkerResponse), s.current_job = some 3 →
      dispatch_worker s ⟨1, r1⟩ = some s ∧
      dispatch_worker s ⟨3, r3⟩ = s.handle_worker r3 := by
  constructor
  · intro s m h
    simp [dispatch_worker, h]
  · intro s r1 r3 h
    constructor
    · simp [dispatch_worker, h]
    · simp [dispatch_worker, h]

/-- Witness for C2 at the concrete state `sSel` (whose current job id is
3): the id-1 response is discarded and the id-3 response is applied. -/
theorem run_discards_stale_responses_witness :
    sSel.current_job = some 3 ∧
    dispatch_worker sSel ⟨1, .error "stale"⟩ = some sSel ∧
    dispatch_worker sSel ⟨3, .error "fresh"⟩ = sSel.handle_worker (.error "fresh") :=
  ⟨rfl,
    (run_discards_stale_responses.2 sSel (.error "stale") (.error "fresh") rfl).1,
    (run_discards_stale_responses.2 sSel (.error "stale") (.error "fresh") rfl).2⟩

/-- Counterexample to claim C3: after a backward one-item page arrives on
the list screen, the `AppState` fields `base_index`/`comparison_index`
are NOT shifted (they stay 5/6), while the `ListView` indices are shifted
to 6/7 — so the claim that both the `AppState` and the `ListView`
positions move to `(b+k, c+k)` is false for the `AppState` ones. -/
theorem loadCommits_appstate_indices_not_shifted :
    (sList.handle_worker (.loadCommits pgX)).map AppState.base_index = some 5 ∧
    (sList.handle_worker (.loadCommits pgX)).map AppState.comparison_index = some 6 ∧
    (screenListView (sList.handle_worker (.loadCommits pgX))).map ListView.base_index
      = some 6 ∧
    (screenListView (sList.handle_worker (.loadCommits pgX))).map ListView.comparison_index
      = some 7 ∧
    (5 : Nat) ≠ 5 + 1 :=
  ⟨rfl, rfl, rfl, rfl, by decide⟩

/-- Claim C3 (amended): when a page arrives on the list screen while the
stored `next_page` is a backward pagination, only the displayed
`ListView` indices are shifted by the number of prepended items — they
then address the same identifiers as before the prepend — while the
`AppState` fields `base_index`/`comparison_index` keep their previous
values unshifted. -/
theorem loadCommits_backward_shifts_listview_only (s : AppState) (lv : ListView)
    (page : Page String) (p : Pagination)
    (hscreen : s.screen = .list lv) (hnp : s.next_page = some p)
    (hdir : p.direction = .backward) :
    (s.handle_worker (.loadCommits page)).map AppState.base_index = some s.base_index ∧
    (s.handle_worker (.loadCommits page)).map AppState.comparison_index
      = some s.comparison_index ∧
    screenListView (s.handle_worker (.loadCommits page)) =
      some { lv with
        total_commits := page.items.length + s.commit_list.length
        base_index := lv.base_index + page.items.length
        comparison_index := lv.comparison_index + page.items.length } ∧
    (s.handle_worker (.loadCommits page)).map
        (fun s2 => s2.commit_list.get? (lv.base_index + page.items.length))
      = some (s.commit_list.get? lv.base_index) ∧
    (s.handle_worker (.loadCommits page)).map
        (fun s2 => s2.commit_list.get? (lv.comparison_index + page.items.length))
      = some (s.commit_list.get? lv.comparison_index) := by
  obtain ⟨scr, sz, ls, su, cl, np, bi, ci, cj, st⟩ := s
  simp only at hscreen hnp
  subst hscreen
  subst hnp
  have hget : ∀ (n : Nat), (page.items ++ cl)[n + page.items.length]? = cl[n]? := by
    intro n
    rw [List.getElem?_append_right (by omega)]
    congr 1
    omega
  simp [AppState.handle_worker, screenListView, hdir, hget]

/-- Witness for the amended C3 at the concrete state `sList` and the
one-item backward page `pgX`. -/
theorem loadCommits_backward_shifts_listview_only_witness :
    sList.screen = .list lvSample ∧ sList.next_page = some pagBack ∧
    pagBack.direction = .backward ∧
    ((sList.handle_worker (.loadCommits pgX)).map AppState.base_index
        = some sList.base_index ∧
      (sList.handle_worker (.loadCommits pgX)).map AppState.comparison_index
        = some sList.comparison_index ∧
      screenListView (sList.handle_worker (.loadCommits pgX)) =
        some { lvSample with
          total_commits := pgX.items.length + sList.commit_list.length
          base_index := lvSample.base_index + pgX.items.length
          comparison_index := lvSample.comparison_index + pgX.items.length } ∧
      (sList.handle_worker (.loadCommits pgX)).map
          (fun s2 => s2.commit_list.get? (lvSample.base_index + pgX.items.length))
        = some (sList.commit_list.get? lvSample.base_index) ∧
      (sList.handle_worker (.loadCommits pgX)).map
          (fun s2 => s2.commit_list.get? (lvSample.comparison_index + pgX.items.length))
        = some (sList.commit_list.get? lvSample.comparison_index)) :=
  ⟨rfl, rfl, rfl,
    loadCommits_backward_shifts_listview_only sList lvSample pgX pagBack rfl rfl rfl⟩

/-- Counterexample to claim C4: a `LoadCommits` request whose fetch
succeeds but whose `ensure_commits_exist` step fails terminates the
worker loop through the `?` operator — no `Error` response is produced
for it, and a queued second request is never serviced (zero responses for
two requests). -/
theorem workerLoop_ensure_error_kills_loop :
    workerLoop [⟨7, .loadCommits (.ok ⟨["a"], .backward, none⟩) (.error "boom")⟩,
                ⟨8, .calculateBranchDiff (.ok []) 0 1⟩]
      = ([], some "boom") ∧
    ([⟨7, .loadCommits (.ok ⟨["a"], .backward, none⟩) (.error "boom")⟩,
      ⟨8, .calculateBranchDiff (.ok []) 0 1⟩] : List (WorkerMsg WReq)).length = 2 :=
  ⟨rfl, rfl⟩

/-- Claim C4 (amended): errors from `fetch_history`,
`calculate_branch_diff` and the render step are converted into `Error`
responses tagged with the job id of the request, and the worker continues
consuming the queue, producing exactly one response per request in
submission order; only an error of `ensure_commits_exist` (after a
successful fetch) propagates and terminates the loop without a
response. -/
theorem workerLoop_one_response_per_request (reqs : List (WorkerMsg WReq))
    (h : ∀ r ∈ reqs, ensureOk r.msg = true) :
    workerLoop reqs = (reqs.map (fun r => ⟨r.job_id, responseFor r.msg⟩), none) := by
  induction reqs with
  | nil => rfl
  | cons r rs ih =>
      have hr : ensureOk r.msg = true := h r (List.mem_cons_self r rs)
      have hstep : processRequest r.msg = .ok (responseFor r.msg) := by
        cases hm : r.msg with
        | loadCommits fetch ensure =>
            cases fetch with
            | ok page =>
                cases ensure with
                | ok u => rfl
                | error e =>
                    rw [hm] at hr
                    simp [ensureOk] at hr
            | error e => rfl
        | calculateBranchDiff c fi ti => cases c <;> rfl
        | renderInterdiff rr scroll => cases rr <;> rfl
      rw [workerLoop, hstep]
      rw [ih (fun x hx => h x (List.mem_cons_of_mem r hx))]
      rfl

/-- Witness for the amended C4 at `okReqs`: two failing requests and one
succeeding one each yield exactly one tagged response and the loop ends
normally. -/
theorem workerLoop_one_response_per_request_witness :
    (∀ r ∈ okReqs, ensureOk r.msg = true) ∧
    workerLoop okReqs = (okReqs.map (fun r => ⟨r.job_id, responseFor r.msg⟩), none) :=
  ⟨by decide, workerLoop_one_response_per_request okReqs (by decide)⟩

/-- Counterexample to claim C5: with two distinct commits sharing one
fallback source on the `from` side, both emitted rows carry the sha of
the SECOND (last) occurrence — the first occurrence is replaced in the
map by the later insert, contradicting the claim that the first
occurrence encountered is kept. -/
theorem calculate_branch_diff_duplicate_keeps_last :
    (calculate_branch_diff kZ dZ [dup1, dup2] []).map (fun r => r.fromSide.map CommitMeta.sha)
      = [some "sha2", some "sha2"] ∧
    dup1.sha = "sha1" ∧ ("sha1" : String) ≠ "sha2" := by
  refine ⟨?_, rfl, by decide⟩
  simp [calculate_branch_diff, reconcileLoop, mInsert, mFind, List.find?, rowStats,
    commitMeta, kZ, dZ, dup1, dup2]

/-- Claim C5 (amended): every emitted row is keyed by some source and
carries, on each side, the LAST occurrence of that source inserted into
the map of that side (later occurrences replace earlier ones), not the
first. -/
theorem calculate_branch_diff_rows_use_latest_insert (k : RCommit → DiffStats)
    (d : RCommit → RCommit → DiffStats) (from_commits to_commits : List RCommit)
    (r : CommitDiff) (hr : r ∈ calculate_branch_diff k d from_commits to_commits) :
    ∃ s, r.fromSide = (findLast from_commits s).map commitMeta ∧
      r.toSide = (findLast to_commits s).map commitMeta := by
  simp only [calculate_branch_diff] at hr
  obtain ⟨s, hs, rfl⟩ := List.mem_map.mp hr
  refine ⟨s, ?_, ?_⟩
  · show (mFind (reconcileLoop from_commits to_commits [] [] []).1 s).map commitMeta = _
    rw [(reconcileLoop_maps from_commits to_commits [] [] []).1, mFind_insertAll_nil]
  · show (mFind (reconcileLoop from_commits to_commits [] [] []).2.1 s).map commitMeta = _
    rw [(reconcileLoop_maps from_commits to_commits [] [] []).2, mFind_insertAll_nil]

/-- Witness for the amended C5 at the duplicated-source input: the first
row of the result is in the result and carries the last occurrence. -/
theorem calculate_branch_diff_rows_use_latest_insert_witness :
    (⟨some ⟨"sha2", "second"⟩, none, ⟨0, 0, 0⟩⟩ : CommitDiff) ∈
        calculate_branch_diff kZ dZ [dup1, dup2] [] ∧
    ∃ s, (⟨some ⟨"sha2", "second"⟩, none, ⟨0, 0, 0⟩⟩ : CommitDiff).fromSide
          = (findLast [dup1, dup2] s).map commitMeta ∧
        (⟨some ⟨"sha2", "second"⟩, none, ⟨0, 0, 0⟩⟩ : CommitDiff).toSide
          = (findLast [] s).map commitMeta := by
  have hmem : (⟨some ⟨"sha2", "second"⟩, none, ⟨0, 0, 0⟩⟩ : CommitDiff) ∈
      calculate_branch_diff kZ dZ [dup1, dup2] [] := by
    simp [calculate_branch_diff, reconcileLoop, mInsert, mFind, List.find?, rowStats,
      commitMeta, kZ, dZ, dup1, dup2]
  exact ⟨hmem, calculate_branch_diff_rows_use_latest_insert kZ dZ [dup1, dup2] [] _ hmem⟩

/-- Counterexample to claim C6: applying a reconciliation-completed
response with 2 commits to a state whose remembered selection is 5 yields
a list screen whose selected index is 2 = len — the selection is clamped
with `min(len, selected)`, which is NOT inside the half-open range
`[0, len)`. -/
theorem handle_worker_selection_equals_length :
    (screenListView (sSel.handle_worker (.calculateBranchDiff [cdSample, cdSample] 0 1))).map
        (fun lv => (lv.list_state.selected, lv.commits.length)) = some (some 2, 2) ∧
    ¬ (2 < 2) :=
  ⟨rfl, by decide⟩

/-- Claim C6 (amended): applying a reconciliation-completed response from
any screen state yields a list screen whose selection is
`min(len, previous selection)` — clamped into the CLOSED range
`[0, len]`, so it can equal `len` but never exceed it. -/
theorem handle_worker_selection_min_clamped (s : AppState) (commits : List CommitDiff)
    (f t : Nat) :
    (screenListView (s.handle_worker (.calculateBranchDiff commits f t))).map
        (fun lv => lv.list_state.selected) =
      some (some (min commits.length (s.list_state.selected.getD 0))) ∧
    min commits.length (s.list_state.selected.getD 0) ≤ commits.length := by
  refine ⟨?_, Nat.min_le_left _ _⟩
  obtain ⟨scr, sz, ls, su, cl, np, bi, ci, cj, st⟩ := s
  cases np with
  | none => rfl
  | some next =>
      simp only [AppState.handle_worker]
      rw [apply_ite screenListView]
      simp [screenListView]

/-- Counterexample to claim C7: a page whose declared direction is
`Forward` is still spliced at the FRONT of the commit directory (the code
always splices at `0..0`), not appended at the back. -/
theorem loadCommits_forward_page_still_prepended :
    (sErr.handle_worker (.loadCommits ⟨["x"], .forward, none⟩)).map AppState.commit_list
      = some ["x", "a", "b"] ∧
    (["x", "a", "b"] : List String) ≠ ["a", "b", "x"] :=
  ⟨rfl, by decide⟩

/-- Claim C7 (amended): every page response splices its items at the
front of the commit directory regardless of the declared direction; the
relative order of previously-held identifiers is unchanged and nothing is
reordered or deduplicated. -/
theorem loadCommits_always_prepends (s s2 : AppState) (page : Page String)
    (h : s.handle_worker (.loadCommits page) = some s2) :
    s2.commit_list = page.items ++ s.commit_list := by
  obtain ⟨scr, sz, ls, su, cl, np, bi, ci, cj, st⟩ := s
  cases scr with
  | loading msg =>
      simp only [AppState.handle_worker] at h
      split at h
      · simp only [Option.map_some', Option.some.injEq] at h
        subst h
        rfl
      · simp at h
  | list lv =>
      simp only [AppState.handle_worker, Option.map_some', Option.some.injEq] at h
      subst h
      rfl
  | exit =>
      simp only [AppState.handle_worker, Option.map_some', Option.some.injEq] at h
      subst h
      rfl
  | error msg =>
      simp only [AppState.handle_worker, Option.map_some', Option.some.injEq] at h
      subst h
      rfl
  | diffView v =>
      simp only [AppState.handle_worker, Option.map_some', Option.some.injEq] at h
      subst h
      rfl

/-- Witness for the amended C7 at the concrete state `sErr` and a forward
one-item page. -/
theorem loadCommits_always_prepends_witness :
    sErr.handle_worker (.loadCommits ⟨["x"], .forward, none⟩) = some sErrAfter ∧
    sErrAfter.commit_list = ["x"] ++ sErr.commit_list :=
  ⟨rfl, loadCommits_always_prepends sErr sErrAfter ⟨["x"], .forward, none⟩ rfl⟩

/-- Claim C8: on identical input sequences every entry of the result is a
match — both sides present with the same metadata (same sha) and the
per-commit own-parent stats, so the delta between the two sides is zero —
and `has_changes` is false on every entry; the result has one entry per
input commit. -/
theorem calculate_branch_diff_identical (k : RCommit → DiffStats)
    (d : RCommit → RCommit → DiffStats) (cs : List RCommit) :
    (calculate_branch_diff k d cs cs).length = cs.length ∧
    ∀ r ∈ calculate_branch_diff k d cs cs,
      ∃ c, r = ⟨some (commitMeta c), some (commitMeta c), k c⟩ ∧ r.has_changes = false := by
  constructor
  · simp [calculate_branch_diff, reconcileLoop_self]
  · intro r hr
    simp only [calculate_branch_diff, reconcileLoop_self, List.nil_append] at hr
    obtain ⟨s, hs, rfl⟩ := List.mem_map.mp hr
    have hsome := findLast_isSome cs s hs
    obtain ⟨c, hc⟩ := Option.isSome_iff_exists.mp hsome
    refine ⟨c, ?_, ?_⟩
    · simp [mFind_insertAll_nil, hc, rowStats]
    · simp [mFind_insertAll_nil, hc, rowStats, CommitDiff.has_changes, commitMeta]

/-- Witness for C8 at `cs = [cA, cB]`. -/
theorem calculate_branch_diff_identical_witness :
    (calculate_branch_diff kZ dZ [cA, cB] [cA, cB]).length = 2 ∧
    ∀ r ∈ calculate_branch_diff kZ dZ [cA, cB] [cA, cB],
      ∃ c, r = ⟨some (commitMeta c), some (commitMeta c), kZ c⟩ ∧ r.has_changes = false :=
  calculate_branch_diff_identical kZ dZ [cA, cB]

/-- Claim C9: every `CommitDiff` produced by the reconciliation has at
least one of its two sides present. -/
theorem calculate_branch_diff_one_side_present (k : RCommit → DiffStats)
    (d : RCommit → RCommit → DiffStats) (from_commits to_commits : List RCommit)
    (r : CommitDiff) (hr : r ∈ calculate_branch_diff k d from_commits to_commits) :
    r.fromSide.isSome ∨ r.toSide.isSome := by
  simp only [calculate_branch_diff] at hr
  obtain ⟨s, hs, rfl⟩ := List.mem_map.mp hr
  rcases reconcileLoop_ids_mem from_commits to_commits [] [] [] s hs with h | h | h
  · simp at h
  · left
    show ((mFind (reconcileLoop from_commits to_commits [] [] []).1 s).map commitMeta).isSome
    rw [(reconcileLoop_maps from_commits to_commits [] [] []).1, mFind_insertAll_nil]
    simpa using findLast_isSome from_commits s h
  · right
    show ((mFind (reconcileLoop from_commits to_commits [] [] []).2.1 s).map commitMeta).isSome
    rw [(reconcileLoop_maps from_commits to_commits [] [] []).2, mFind_insertAll_nil]
    simpa using findLast_isSome to_commits s h

/-- Witness for C9 at `from = []`, `to = [cC]` and the single emitted
row. -/
theorem calculate_branch_diff_one_side_present_witness :
    (⟨none, some ⟨"c1", "msg c"⟩, ⟨0, 0, 0⟩⟩ : CommitDiff) ∈
        calculate_branch_diff kZ dZ [] [cC] ∧
    ((⟨none, some ⟨"c1", "msg c"⟩, ⟨0, 0, 0⟩⟩ : CommitDiff).fromSide.isSome ∨
      (⟨none, some ⟨"c1", "msg c"⟩, ⟨0, 0, 0⟩⟩ : CommitDiff).toSide.isSome) := by
  have hmem : (⟨none, some ⟨"c1", "msg c"⟩, ⟨0, 0, 0⟩⟩ : CommitDiff) ∈
      calculate_branch_diff kZ dZ [] [cC] := by
    simp [calculate_branch_diff, reconcileLoop, mInsert, mFind, List.find?, rowStats,
      commitMeta, kZ, dZ, cC]
  exact ⟨hmem, calculate_branch_diff_one_side_present kZ dZ [] [cC] _ hmem⟩

/-- Claim C10: handling a `LoadCommits` response on the loading screen
panics (out-of-bounds index after the wrapped `len - 2` / `len - 1`
subtraction, modelled as `none`) whenever the merged commit directory
holds fewer than two identifiers, and is total (returns `some`) whenever
it holds at least two. -/
theorem handle_worker_loading_needs_two (s : AppState) (page : Page String)
    (msg : Option String) (hscreen : s.screen = .loading msg) :
    (page.items.length + s.commit_list.length < 2 →
      s.handle_worker (.loadCommits page) = none) ∧
    (2 ≤ page.items.length + s.commit_list.length →
      (s.handle_worker (.loadCommits page)).isSome) := by
  obtain ⟨scr, sz, ls, su, cl, np, bi, ci, cj, st⟩ := s
  simp only at hscreen
  subst hscreen
  dsimp only
  constructor
  · intro hlt
    simp only [AppState.handle_worker]
    cases page.direction with
    | backward =>
        have h1 : (page.items ++ cl)[usizeSub (page.items.length + cl.length) 2]? = none := by
          rw [List.getElem?_eq_none]
          simp only [List.length_append, usizeSub]
          split <;> omega
        simp [h1]
    | forward =>
        have h1 : (page.items ++ cl)[(1 : Nat)]? = none := by
          rw [List.getElem?_eq_none]
          simp only [List.length_append]
          omega
        cases hx : (page.items ++ cl)[(0 : Nat)]? <;> simp [h1, hx]
  · intro hge
    simp only [AppState.handle_worker]
    cases page.direction with
    | backward =>
        have hb1 : usizeSub (page.items.length + cl.length) 2 < (page.items ++ cl).length := by
          simp only [List.length_append, usizeSub]
          split <;> omega
        have hb2 : usizeSub (page.items.length + cl.length) 1 < (page.items ++ cl).length := by
          simp only [List.length_append, usizeSub]
          split <;> omega
        have h1 : ((page.items ++ cl)[usizeSub (page.items.length + cl.length) 2]?).isSome := by
          simp [List.getElem?_eq_getElem hb1]
        have h2 : ((page.items ++ cl)[usizeSub (page.items.length + cl.length) 1]?).isSome := by
          simp [List.getElem?_eq_getElem hb2]
        obtain ⟨cf, hcf⟩ := Option.isSome_iff_exists.mp h1
        obtain ⟨ct, hct⟩ := Option.isSome_iff_exists.mp h2
        simp [hcf, hct]
    | forward =>
        have hb1 : (0 : Nat) < (page.items ++ cl).length := by
          simp only [List.length_append]
          omega
        have hb2 : (1 : Nat) < (page.items ++ cl).length := by
          simp only [List.length_append]
          omega
        have h1 : ((page.items ++ cl)[(0 : Nat)]?).isSome := by
          simp [List.getElem?_eq_getElem hb1]
        have h2 : ((page.items ++ cl)[(1 : Nat)]?).isSome := by
          simp [List.getElem?_eq_getElem hb2]
        obtain ⟨cf, hcf⟩ := Option.isSome_iff_exists.mp h1
        obtain ⟨ct, hct⟩ := Option.isSome_iff_exists.mp h2
        simp [hcf, hct]

/-- Witness for C10 at `sLoading` (empty directory, loading screen) and a
one-item backward first page: the handler panics. -/
theorem handle_worker_loading_needs_two_witness :
    sLoading.screen = .loading none ∧
    pgOne.items.length + sLoading.commit_list.length < 2 ∧
    sLoading.handle_worker (.loadCommits pgOne) = none :=
  ⟨rfl, by decide,
    (handle_worker_loading_needs_two sLoading pgOne none rfl).1 (by decide)⟩

end Diffsoup
